import Mathlib

/-!
# Smart System Monitor: sampling engine and session loop

A shallow embedding of `src/main.cpp`.

Conventions of the embedding

* `unsigned long long` values are natural numbers; every arithmetic operation the
  source performs on them is taken modulo `2 ^ 64` (`wrap64`, `sub64`).
* `float` values are rationals: the conversion `(float)x` is the exact cast and
  `/`, `*` are the exact rational operations.
* `std::string` is `List Char`.
* `std::unordered_map<int, unsigned long long>` is an association list with at
  most one entry per key (`TickMap`); iteration order is never observed.
* The files under `/proc` are an oracle `ProcFS` giving, for each read the
  source performs, the values the read stored in the program's variables.
* The library functions the source calls are written out: `std::sort` after the
  implementation in libstdc++, `std::stoi` and `std::to_string` after the C++
  standard.
-/

namespace SysMon

/-! ## Machine integers -/

/-- Reduction of a natural number to the range of `unsigned long long`. -/
def wrap64 (n : Nat) : Nat := n % 2 ^ 64

/-- Subtraction of two `unsigned long long` values, `a - b` in C++. -/
def sub64 (a b : Nat) : Nat := (a % 2 ^ 64 + (2 ^ 64 - b % 2 ^ 64)) % 2 ^ 64

/-! ## Data model -/

/-- The record `struct ProcessInfo`. -/
structure ProcessInfo where
  pid : Int
  name : List Char
  cpu : ℚ
  mem : ℚ
  deriving DecidableEq, Repr

/-- The eight counters `sscanf` stores from the `cpu` line of `/proc/stat`. -/
structure CpuLine where
  u : Nat
  n : Nat
  s : Nat
  i : Nat
  io : Nat
  iq : Nat
  si : Nat
  st : Nat
  deriving DecidableEq, Repr

/-- What the process-information file system answers to the reads of one tick.

* `statLine`: the parsed first line of `/proc/stat`, `none` when the line cannot be
  read or `sscanf` does not convert eight fields;
* `procStat pid`: `(utime, stime)` of `/proc/pid/stat`, `none` on each path of
  `readProcCPU` that returns `0` early;
* `comm pid`: the first line of `/proc/pid/comm` as `std::getline` stores it,
  `none` when the file cannot be opened;
* `statm pid`: the value `f >> rssPages` stores, `none` when the file cannot be
  opened;
* `pageSize`: `sysconf(_SC_PAGESIZE)`;
* `pids`: the numeric directory entries of `/proc`, in `readdir` order. -/
structure ProcFS where
  statLine : Option CpuLine
  procStat : Int → Option (Nat × Nat)
  comm : Int → Option (List Char)
  statm : Int → Option Nat
  pageSize : Int
  pids : List Int

/-- The map type `std::unordered_map<int, unsigned long long>`. -/
abbrev TickMap := List (Int × Nat)

/-- Lookup, `m.find(k)`: `none` stands for `m.end()`. -/
def TickMap.find (m : TickMap) (k : Int) : Option Nat :=
  match m with
  | [] => none
  | (k', v) :: rest => if k' = k then some v else TickMap.find rest k

/-- Assignment through `operator[]`, `m[k] = v`: overwrites or adds the entry. -/
def TickMap.set (m : TickMap) (k : Int) (v : Nat) : TickMap :=
  (k, v) :: m.filter (fun e => decide (e.1 ≠ k))

/-- The keys present in the map. -/
def TickMap.keys (m : TickMap) : List Int := m.map Prod.fst

/-- The record `struct Snapshot`. -/
structure Snapshot where
  totalCPU_prev : Nat := 0
  procCPU_prev : TickMap := []
  deriving DecidableEq, Repr

/-! ## Readers -/

/-- Sum of the eight counters as `readTotalCPU` and `cpuUsagePercent` compute it. -/
def CpuLine.total (c : CpuLine) : Nat :=
  wrap64 (c.u + c.n + c.s + c.i + c.io + c.iq + c.si + c.st)

/-- The idle family `i + io` of `cpuUsagePercent`. -/
def CpuLine.idle (c : CpuLine) : Nat := wrap64 (c.i + c.io)

/-- Embedding of `readTotalCPU`. -/
def readTotalCPU (os : ProcFS) : Nat :=
  match os.statLine with
  | none => 0
  | some c => c.total

/-- Embedding of `readProcCPU`: `ut + st`, or `0` on failure. -/
def readProcCPU (os : ProcFS) (pid : Int) : Nat :=
  match os.procStat pid with
  | none => 0
  | some (ut, st) => wrap64 (ut + st)

/-- Decimal digits of a natural number. -/
def natToString (n : Nat) : List Char :=
  if h : n < 10 then [Char.ofNat (48 + n)]
  else natToString (n / 10) ++ [Char.ofNat (48 + n % 10)]
decreasing_by omega

/-- The library function `std::to_string(int)`. -/
def to_string (z : Int) : List Char :=
  if z < 0 then '-' :: natToString z.natAbs else natToString z.natAbs

/-- Removal of one trailing line terminator, as in `readProcName`. -/
def stripLineEnd (name : List Char) : List Char :=
  match name.getLast? with
  | some c => if c = '\n' ∨ c = '\r' then name.dropLast else name
  | none => name

/-- Embedding of `readProcName`. -/
def readProcName (os : ProcFS) (pid : Int) : List Char :=
  let name : List Char := match os.comm pid with
    | none => []
    | some line => line
  let name := stripLineEnd name
  if name.isEmpty then to_string pid else name

/-- Embedding of `procMemPercent`. -/
def procMemPercent (os : ProcFS) (pid : Int) (memTotalKB : Int) : ℚ :=
  match os.statm pid with
  | none => 0
  | some rssPages =>
    let pageKB : Int := Int.tdiv os.pageSize 1024
    let usedKB : ℚ := (rssPages : ℚ) * (pageKB : ℚ)
    if memTotalKB ≤ 0 then 0 else usedKB / (memTotalKB : ℚ) * 100

/-- Embedding of `listPIDs`. -/
def listPIDs (os : ProcFS) : List Int := os.pids

/-! ## The sampler -/

/-- The local `totalDiff` of `collectProcesses`. -/
def totalDiff (totalCPU_now totalCPU_prev : Nat) : Nat :=
  if totalCPU_now > totalCPU_prev then sub64 totalCPU_now totalCPU_prev else 1

/-- The local `cpu` of the loop body of `collectProcesses`. -/
def cpuOf (cur prev tDiff : Nat) : ℚ :=
  if cur ≥ prev ∧ tDiff > 0 then ((sub64 cur prev : Nat) : ℚ) / (tDiff : ℚ) * 100 else 0

/-- The local `prev` of the loop body: `0` unless the previous map has the id. -/
def prevOf (snap : Snapshot) (pid : Int) : Nat :=
  match snap.procCPU_prev.find pid with
  | some v => v
  | none => 0

/-- The variables the loop of `collectProcesses` updates. -/
structure LoopState where
  plist : List ProcessInfo
  nextPrev : TickMap

/-- One iteration of the loop of `collectProcesses`. -/
def collectStep (os : ProcFS) (memKB : Int) (snap : Snapshot) (tDiff : Nat)
    (st : LoopState) (pid : Int) : LoopState :=
  let name := readProcName os pid
  if name.isEmpty then st
  else
    let cur := readProcCPU os pid
    let prev := prevOf snap pid
    let nextPrev := st.nextPrev.set pid cur
    let cpu := cpuOf cur prev tDiff
    let mem := procMemPercent os pid memKB
    { plist := st.plist ++ [{ pid := pid, name := name, cpu := cpu, mem := mem }],
      nextPrev := nextPrev }

/-- Embedding of `collectProcesses`: the returned list, the updated snapshot and
the value written to `totalCPU_now`. -/
def collectProcesses (os : ProcFS) (memKB : Int) (snap : Snapshot) :
    List ProcessInfo × Snapshot × Nat :=
  let totalCPU_now := readTotalCPU os
  let pids := listPIDs os
  let tDiff := totalDiff totalCPU_now snap.totalCPU_prev
  let st := pids.foldl (collectStep os memKB snap tDiff)
    { plist := [], nextPrev := snap.procCPU_prev }
  (st.plist, { totalCPU_prev := totalCPU_now, procCPU_prev := st.nextPrev }, totalCPU_now)

/-- The record one iteration of the loop of `collectProcesses` pushes for `pid`. -/
def rowOf (os : ProcFS) (memKB : Int) (snap : Snapshot) (tDiff : Nat) (pid : Int) :
    ProcessInfo :=
  { pid := pid, name := readProcName os pid,
    cpu := cpuOf (readProcCPU os pid) (prevOf snap pid) tDiff,
    mem := procMemPercent os pid memKB }

/-- Embedding of `colorCPU`. -/
def colorCPU (cpu : ℚ) : Int :=
  if cpu ≥ 70 then 3
  else if cpu ≥ 25 then 2
  else 1

/-- Embedding of `colorMEM`. -/
def colorMEM (mem : ℚ) : Int :=
  if mem ≥ 15 then 3
  else if mem ≥ 4 then 2
  else 1

/-- The function-local statics `prevIdle`, `prevTotal` of `cpuUsagePercent`. -/
structure CpuStatics where
  prevIdle : Nat := 0
  prevTotal : Nat := 0
  deriving DecidableEq, Repr

/-- The result of one call of `cpuUsagePercent`: the returned value, the statics
after the call and the two reference parameters after the call. -/
structure CpuUsageResult where
  pct : ℚ
  statics : CpuStatics
  lastCPU : ℚ
  lastTotal : Nat

/-- Embedding of `cpuUsagePercent`. -/
def cpuUsagePercent (os : ProcFS) (statics : CpuStatics) (lastCPU : ℚ) (lastTotal : Nat) :
    CpuUsageResult :=
  match os.statLine with
  | none => { pct := 0, statics := statics, lastCPU := lastCPU, lastTotal := lastTotal }
  | some c =>
    let idle := c.idle
    let total := c.total
    let dIdle := sub64 idle statics.prevIdle
    let dTotal := sub64 total statics.prevTotal
    let statics1 : CpuStatics := { prevIdle := idle, prevTotal := total }
    if dTotal = 0 then
      { pct := 0, statics := statics1, lastCPU := lastCPU, lastTotal := lastTotal }
    else
      let pct : ℚ := ((sub64 dTotal dIdle : Nat) : ℚ) / (dTotal : ℚ) * 100
      { pct := pct, statics := statics1, lastCPU := pct, lastTotal := total }

/-! ## The session loop -/

/-- The requirement the C++ standard puts on the comparator of `std::sort`:
irreflexive, transitive, and with a transitive incomparability relation. -/
def StrictWeakOrder {α : Type} (comp : α → α → Bool) : Prop :=
  (∀ a, comp a a = false) ∧
  (∀ a b c, comp a b = true → comp b c = true → comp a c = true) ∧
  (∀ a b c, (comp a b = false ∧ comp b a = false) → (comp b c = false ∧ comp c b = false) →
    (comp a c = false ∧ comp c a = false))

/-! ## The library sort

`main` sorts with `std::sort`. The functions below follow the implementation in
libstdc++ (`bits/stl_algo.h`, `bits/stl_heap.h`): an introsort that leaves ranges
of at most 16 elements untouched, followed by an insertion sort. A range
`[first, last)` is a list and an iterator is an index into it. The library's
unguarded scans stop on a sentinel that its own invariants provide; here a scan
also stops at the end of the list. -/

/-- The library function `std::iter_swap` on two positions of a range. -/
def iterSwap {α : Type} (l : List α) (i j : Nat) : List α :=
  match l[i]?, l[j]? with
  | some x, some y => (l.set i y).set j x
  | _, _ => l

/-- The library function `std::__move_median_to_first`. -/
def moveMedianToFirst {α : Type} (comp : α → α → Bool) (l : List α) (result a b c : Nat) :
    List α :=
  match l[a]?, l[b]?, l[c]? with
  | some va, some vb, some vc =>
    if comp va vb then
      if comp vb vc then iterSwap l result b
      else if comp va vc then iterSwap l result c
      else iterSwap l result a
    else if comp va vc then iterSwap l result a
    else if comp vb vc then iterSwap l result c
    else iterSwap l result b
  | _, _, _ => l

/-- The scan `while (comp(first, pivot)) ++first;` over the elements from `first` on. -/
def scanUp {α : Type} (comp : α → α → Bool) (pivot : α) : List α → Nat → Nat
  | [], first => first
  | x :: rest, first => if comp x pivot then scanUp comp pivot rest (first + 1) else first

/-- The scan `while (comp(pivot, last)) --last;` over the elements from `last` down. -/
def scanDown {α : Type} (comp : α → α → Bool) (pivot : α) : List α → Nat → Nat
  | [], last => last
  | x :: rest, last => if comp pivot x then scanDown comp pivot rest (last - 1) else last

/-- The library function `std::__unguarded_partition`; the first argument bounds
the number of rounds of its outer loop. -/
def unguardedPartition {α : Type} (comp : α → α → Bool) :
    Nat → List α → Nat → Nat → Nat → Nat × List α
  | 0, l, first, _, _ => (first, l)
  | fuel + 1, l, first, last, pivot =>
    match l[pivot]? with
    | none => (first, l)
    | some p =>
      let first1 := scanUp comp p (l.drop first) first
      let last1 := last - 1
      let last2 := scanDown comp p ((l.take (last1 + 1)).reverse) last1
      if first1 < last2 then
        unguardedPartition comp fuel (iterSwap l first1 last2) (first1 + 1) last2 pivot
      else (first1, l)

/-- The library function `std::__unguarded_partition_pivot`: the cut and the
rearranged range. -/
def unguardedPartitionPivot {α : Type} (comp : α → α → Bool) (l : List α) : Nat × List α :=
  let mid := l.length / 2
  let l1 := moveMedianToFirst comp l 0 1 mid (l.length - 1)
  unguardedPartition comp l.length l1 1 l.length 0

/-- The loop of `std::__unguarded_linear_insert`, on the elements before the
inserted one, nearest first. -/
def linearInsertRev {α : Type} (comp : α → α → Bool) (val : α) : List α → List α
  | [] => [val]
  | next :: rest =>
    if comp val next then next :: linearInsertRev comp val rest else val :: next :: rest

/-- The library function `std::__unguarded_linear_insert`: `val` is the element
right after the range `pre`. -/
def unguardedLinearInsert {α : Type} (comp : α → α → Bool) (pre : List α) (val : α) : List α :=
  (linearInsertRev comp val pre.reverse).reverse

/-- One round of the loop of `std::__insertion_sort`. -/
def insertionStep {α : Type} (comp : α → α → Bool) (pre : List α) (val : α) : List α :=
  match pre with
  | [] => [val]
  | f :: _ => if comp val f then val :: pre else unguardedLinearInsert comp pre val

/-- The library function `std::__insertion_sort`. -/
def insertionSort {α : Type} (comp : α → α → Bool) : List α → List α
  | [] => []
  | x :: rest => rest.foldl (insertionStep comp) [x]

/-- The library function `std::__unguarded_insertion_sort` on the range `rest`
that follows `pre`. -/
def unguardedInsertionSort {α : Type} (comp : α → α → Bool) (pre rest : List α) : List α :=
  rest.foldl (unguardedLinearInsert comp) pre

/-- The library function `std::__final_insertion_sort`. -/
def finalInsertionSort {α : Type} (comp : α → α → Bool) (l : List α) : List α :=
  if l.length > 16 then
    unguardedInsertionSort comp (insertionSort comp (l.take 16)) (l.drop 16)
  else insertionSort comp l

/-- The library function `std::__push_heap`. -/
def pushHeap {α : Type} (comp : α → α → Bool) (l : List α) (holeIndex topIndex : Nat)
    (value : α) : List α :=
  let parent := (holeIndex - 1) / 2
  match l[parent]? with
  | some pv =>
    if _h : holeIndex > topIndex ∧ comp pv value = true then
      pushHeap comp (l.set holeIndex pv) parent topIndex value
    else l.set holeIndex value
  | none => l.set holeIndex value
termination_by holeIndex
decreasing_by omega

/-- The first loop of `std::__adjust_heap`: the hole sinks to the child that
does not compare before the other. -/
def adjustLoop {α : Type} (comp : α → α → Bool) (l : List α) (holeIndex len : Nat) :
    List α × Nat :=
  if _h : holeIndex < (len - 1) / 2 then
    let secondChild := 2 * (holeIndex + 1)
    match l[secondChild]?, l[secondChild - 1]? with
    | some x, some y =>
      if comp x y then adjustLoop comp (l.set holeIndex y) (secondChild - 1) len
      else adjustLoop comp (l.set holeIndex x) secondChild len
    | _, _ => (l, holeIndex)
  else (l, holeIndex)
termination_by len - holeIndex
decreasing_by all_goals omega

/-- The library function `std::__adjust_heap`. -/
def adjustHeap {α : Type} (comp : α → α → Bool) (l : List α) (holeIndex len : Nat)
    (value : α) : List α :=
  let r := adjustLoop comp l holeIndex len
  let r2 : List α × Nat :=
    if len % 2 = 0 ∧ r.2 = (len - 2) / 2 then
      match r.1[2 * (r.2 + 1) - 1]? with
      | some y => (r.1.set r.2 y, 2 * (r.2 + 1) - 1)
      | none => r
    else r
  pushHeap comp r2.1 r2.2 holeIndex value

/-- The library function `std::__pop_heap` on the heap `[0, last)`. -/
def popHeap {α : Type} (comp : α → α → Bool) (l : List α) (last result : Nat) : List α :=
  match l[result]?, l[0]? with
  | some value, some top => adjustHeap comp (l.set result top) 0 last value
  | _, _ => l

/-- The loop of `std::__make_heap`, from `parent` down to 0. -/
def makeHeapFrom {α : Type} (comp : α → α → Bool) : Nat → List α → List α
  | 0, l =>
    match l[0]? with
    | some value => adjustHeap comp l 0 l.length value
    | none => l
  | parent + 1, l =>
    match l[parent + 1]? with
    | some value => makeHeapFrom comp parent (adjustHeap comp l (parent + 1) l.length value)
    | none => l

/-- The library function `std::__make_heap` on the whole range. -/
def makeHeap {α : Type} (comp : α → α → Bool) (l : List α) : List α :=
  if l.length < 2 then l else makeHeapFrom comp ((l.length - 2) / 2) l

/-- The loop of `std::__sort_heap`, with `last` the end of the heap. -/
def sortHeapFrom {α : Type} (comp : α → α → Bool) : Nat → List α → List α
  | 0, l => l
  | 1, l => l
  | last + 2, l => sortHeapFrom comp (last + 1) (popHeap comp l (last + 1) (last + 1))

/-- The library call `std::__partial_sort(first, last, last)`: a heap sort of the
whole range. -/
def partialSort {α : Type} (comp : α → α → Bool) (l : List α) : List α :=
  sortHeapFrom comp l.length (makeHeap comp l)

/-- The library function `std::__introsort_loop`; its first argument is the
depth limit. -/
def introsortLoop {α : Type} (comp : α → α → Bool) : Nat → List α → List α
  | 0, l => if l.length > 16 then partialSort comp l else l
  | d + 1, l =>
    if l.length > 16 then
      let r := unguardedPartitionPivot comp l
      introsortLoop comp d (r.2.take r.1) ++ introsortLoop comp d (r.2.drop r.1)
    else l

/-- Halving rounds of the library function `std::__lg`. -/
def lgAux : Nat → Nat → Nat
  | 0, _ => 0
  | fuel + 1, n => if n ≥ 2 then lgAux fuel (n / 2) + 1 else 0

/-- The library function `std::__lg`: the position of the highest set bit. -/
def lg (n : Nat) : Nat := lgAux n n

/-- The library function `std::sort` (`std::__sort`). -/
def stdSort {α : Type} (comp : α → α → Bool) (l : List α) : List α :=
  match l with
  | [] => []
  | _ :: _ => finalInsertionSort comp (introsortLoop comp (2 * lg l.length) l)

/-- The comparator lambda of the `sortByCPU` branch. -/
def byCpu (a b : ProcessInfo) : Bool := decide (a.cpu > b.cpu)

/-- The comparator lambda of the other branch. -/
def byMem (a b : ProcessInfo) : Bool := decide (a.mem > b.mem)

/-- The sort step of the loop body of `main`. -/
def sortProcesses (sortByCPU : Bool) (plist : List ProcessInfo) : List ProcessInfo :=
  if sortByCPU then stdSort byCpu plist else stdSort byMem plist

/-- The metric the sort step orders by. -/
def activeMetric (sortByCPU : Bool) (p : ProcessInfo) : ℚ :=
  if sortByCPU then p.cpu else p.mem

/-- The alert loop of `main`, with its early `break`. -/
def computeAlert : List ProcessInfo → Bool
  | [] => false
  | p :: rest => if p.cpu ≥ 70 ∨ p.mem ≥ 15 then true else computeAlert rest

/-- The white space `strtol` skips in the C locale. -/
def isSpaceC (c : Char) : Bool :=
  c = ' ' || c = '\t' || c = '\n' || c = '\x0b' || c = '\x0c' || c = '\r'

/-- Value of a run of decimal digits. -/
def digitsValue (ds : List Char) : Nat :=
  ds.foldl (fun acc c => acc * 10 + (c.toNat - 48)) 0

/-- The library function `std::stoi` in base 10: leading white space is skipped,
one sign is accepted, the longest run of digits is converted and what follows is
ignored. `none` stands for the two exceptions: no digit (`invalid_argument`) and a
value outside the range of `int` (`out_of_range`). -/
def stoi (str : List Char) : Option Int :=
  let s1 := str.dropWhile isSpaceC
  let neg : Bool := match s1 with
    | '-' :: _ => true
    | _ => false
  let s2 : List Char := match s1 with
    | '-' :: r => r
    | '+' :: r => r
    | _ => s1
  let ds := s2.takeWhile Char.isDigit
  if ds.isEmpty then none
  else
    let v : Int := if neg then -(digitsValue ds : Int) else (digitsValue ds : Int)
    if v < -(2 : Int) ^ 31 ∨ v > (2 : Int) ^ 31 - 1 then none else some v

/-- The status line the kill branch prints. -/
inductive KillStatus where
  | sent (pid : Int)
  | failed (pid : Int)
  | invalidPid
  deriving DecidableEq, Repr

/-- What the kill branch does: the targets of the `kill(pid, SIGTERM)` calls it
makes, in order, and the status line. -/
structure KillOutcome where
  sigterms : List Int
  status : KillStatus
  deriving DecidableEq, Repr

/-- The kill branch of `main` after the prompt has filled `buf`; `kill` is the
system call with the signal fixed to `SIGTERM`, giving its return code. -/
def killBranch (kill : Int → Int) (buf : List Char) : KillOutcome :=
  let pid : Int := match stoi buf with
    | some v => v
    | none => 0
  if pid > 1 then
    let rc := kill pid
    if rc = 0 then { sigterms := [pid], status := KillStatus.sent pid }
    else { sigterms := [pid], status := KillStatus.failed pid }
  else { sigterms := [], status := KillStatus.invalidPid }

/-! ## Concrete inputs -/

/-- A tick in which `/proc` lists the single id 7: its cumulative ticks are
`30 + 20`, and the system total reads `1100`. -/
def osSingle : ProcFS :=
  { statLine := some { u := 300, n := 0, s := 0, i := 800, io := 0, iq := 0, si := 0, st := 0 },
    procStat := fun pid => if pid = 7 then some (30, 20) else none,
    comm := fun pid => if pid = 7 then some ['s', 'h'] else none,
    statm := fun pid => if pid = 7 then some 0 else none,
    pageSize := 4096,
    pids := [7] }

/-- A snapshot taken when the system total read `1000` and no process had been seen. -/
def snapEmpty : Snapshot := { totalCPU_prev := 1000, procCPU_prev := [] }

/-- A snapshot whose map holds a baseline for id 5 only. -/
def snapStale : Snapshot := { totalCPU_prev := 1000, procCPU_prev := [(5, 10)] }

/-- A snapshot whose map holds the baseline `20` for id 7. -/
def snapSeen : Snapshot := { totalCPU_prev := 1000, procCPU_prev := [(7, 20)] }

/-- A tick in which `/proc` lists id 42 but none of its files can be opened any more. -/
def osVanished : ProcFS :=
  { statLine := some { u := 300, n := 0, s := 0, i := 800, io := 0, iq := 0, si := 0, st := 0 },
    procStat := fun _ => none,
    comm := fun _ => none,
    statm := fun _ => none,
    pageSize := 4096,
    pids := [42] }

/-- The rows `[{id:1,cpu:10},{id:2,cpu:90},{id:3,cpu:10}]`. -/
def rowsExample : List ProcessInfo :=
  [{ pid := 1, name := [], cpu := 10, mem := 0 },
   { pid := 2, name := [], cpu := 90, mem := 0 },
   { pid := 3, name := [], cpu := 10, mem := 0 }]

/-- Seventeen rows with the ids 1 to 17, in this order, all with `cpu = 0`. -/
def rowsTied : List ProcessInfo :=
  (List.range 17).map (fun k => { pid := (k : Int) + 1, name := [], cpu := 0, mem := 0 })

/-- Two consecutive readings of `/proc/stat`: total `1000` then `1100`, idle
`800` then `850`. -/
def lineA : CpuLine := { u := 200, n := 0, s := 0, i := 800, io := 0, iq := 0, si := 0, st := 0 }

/-- The second reading of the pair starting with `lineA`. -/
def lineB : CpuLine := { u := 250, n := 0, s := 0, i := 850, io := 0, iq := 0, si := 0, st := 0 }

/-- The oracle of a tick whose `/proc/stat` line parses to `c`; no process is listed. -/
def osOfLine (c : CpuLine) : ProcFS :=
  { statLine := some c,
    procStat := fun _ => none,
    comm := fun _ => none,
    statm := fun _ => none,
    pageSize := 4096,
    pids := [] }

/-- Two consecutive calls of `cpuUsagePercent`, the first from the given statics
and reference parameters, on the readings of `os0` then `os1`; the result of the
second call. -/
def cpuUsageTwice (os0 os1 : ProcFS) (statics : CpuStatics) (lastCPU : ℚ) (lastTotal : Nat) :
    CpuUsageResult :=
  let r0 := cpuUsagePercent os0 statics lastCPU lastTotal
  cpuUsagePercent os1 r0.statics r0.lastCPU r0.lastTotal

/-! ## Basic facts -/

theorem sub64_of_le {a b : Nat} (hb : b ≤ a) (ha : a < 2 ^ 64) : sub64 a b = a - b := by
  unfold sub64
  omega

theorem wrap64_lt (n : Nat) : wrap64 n < 2 ^ 64 := by
  unfold wrap64
  omega

theorem readTotalCPU_lt (os : ProcFS) : readTotalCPU os < 2 ^ 64 := by
  unfold readTotalCPU
  cases os.statLine with
  | none => simp
  | some c => exact wrap64_lt _

theorem readProcCPU_lt (os : ProcFS) (pid : Int) : readProcCPU os pid < 2 ^ 64 := by
  unfold readProcCPU
  cases os.procStat pid with
  | none => simp
  | some p => exact wrap64_lt _

theorem natToString_ne_nil (n : Nat) : natToString n ≠ [] := by
  unfold natToString
  split <;> simp

theorem to_string_ne_nil (z : Int) : to_string z ≠ [] := by
  unfold to_string
  split
  · simp
  · exact natToString_ne_nil _

theorem readProcName_ne_nil (os : ProcFS) (pid : Int) : readProcName os pid ≠ [] := by
  unfold readProcName
  simp only []
  split
  · exact to_string_ne_nil pid
  · rename_i h
    intro h2
    rw [h2] at h
    simp at h

theorem readProcName_of_none (os : ProcFS) (pid : Int) (h : os.comm pid = none) :
    readProcName os pid = to_string pid := by
  simp [readProcName, h, stripLineEnd]

theorem readProcName_of_empty (os : ProcFS) (pid : Int) (line : List Char)
    (h : os.comm pid = some line) (h2 : stripLineEnd line = []) :
    readProcName os pid = to_string pid := by
  simp [readProcName, h, h2]

theorem readProcName_of_line (os : ProcFS) (pid : Int) (line : List Char)
    (h : os.comm pid = some line) (h2 : stripLineEnd line ≠ []) :
    readProcName os pid = stripLineEnd line := by
  simp [readProcName, h, h2]

theorem readProcName_isEmpty (os : ProcFS) (pid : Int) :
    (readProcName os pid).isEmpty = false := by
  have h := readProcName_ne_nil os pid
  cases hn : readProcName os pid with
  | nil => exact absurd hn h
  | cons a t => rfl

theorem collectStep_eq (os : ProcFS) (memKB : Int) (snap : Snapshot) (tDiff : Nat)
    (st : LoopState) (pid : Int) :
    collectStep os memKB snap tDiff st pid =
      { plist := st.plist ++ [rowOf os memKB snap tDiff pid],
        nextPrev := st.nextPrev.set pid (readProcCPU os pid) } := by
  unfold collectStep rowOf
  simp [readProcName_isEmpty]

theorem foldl_collectStep (os : ProcFS) (memKB : Int) (snap : Snapshot) (tDiff : Nat)
    (pids : List Int) (st : LoopState) :
    pids.foldl (collectStep os memKB snap tDiff) st =
      { plist := st.plist ++ pids.map (rowOf os memKB snap tDiff),
        nextPrev := pids.foldl (fun m pid => TickMap.set m pid (readProcCPU os pid))
          st.nextPrev } := by
  induction pids generalizing st with
  | nil => simp
  | cons p ps ih =>
    rw [List.foldl_cons, ih, collectStep_eq]
    simp

/-- The list `collectProcesses` returns has one record per enumerated id, in
enumeration order. -/
theorem collectProcesses_plist (os : ProcFS) (memKB : Int) (snap : Snapshot) :
    (collectProcesses os memKB snap).1 =
      os.pids.map (rowOf os memKB snap (totalDiff (readTotalCPU os) snap.totalCPU_prev)) := by
  unfold collectProcesses listPIDs
  simp [foldl_collectStep]

/-- The map `collectProcesses` leaves in the snapshot. -/
theorem collectProcesses_map (os : ProcFS) (memKB : Int) (snap : Snapshot) :
    (collectProcesses os memKB snap).2.1.procCPU_prev =
      os.pids.foldl (fun m pid => TickMap.set m pid (readProcCPU os pid))
        snap.procCPU_prev := by
  unfold collectProcesses listPIDs
  simp [foldl_collectStep]

theorem totalDiff_pos_of_lt (now prev : Nat) (h : now < 2 ^ 64) : 0 < totalDiff now prev := by
  unfold totalDiff
  split
  · rename_i hlt
    rw [sub64_of_le (Nat.le_of_lt hlt) h]
    omega
  · exact Nat.one_pos

/-! ## The sampler: claims -/

/-- C10. For an unsigned 64-bit `totalNow` and any `previousTotalCpuTicks`, the
`totalDiff` of `collectProcesses` is `max (totalNow - previous) 1` with the
subtraction over the integers; so it is at least 1, it is a non-zero divisor in
the `cpuPercent` formula, and a total that did not grow gives 1. -/
theorem C10_totalDiff_floor (now prev : Nat) (hn : now < 2 ^ 64) :
    ((totalDiff now prev : Nat) : Int) = max ((now : Int) - (prev : Int)) 1 ∧
    1 ≤ totalDiff now prev ∧
    ((totalDiff now prev : Nat) : ℚ) ≠ 0 ∧
    (now ≤ prev → totalDiff now prev = 1) := by
  have hpos : 0 < totalDiff now prev := totalDiff_pos_of_lt now prev hn
  refine ⟨?_, hpos, ?_, ?_⟩
  · unfold totalDiff
    split
    · rename_i hlt
      rw [sub64_of_le (Nat.le_of_lt hlt) hn]
      omega
    · omega
  · exact_mod_cast (Nat.pos_iff_ne_zero.mp hpos)
  · intro hle
    unfold totalDiff
    rw [if_neg (by omega)]

theorem C10_totalDiff_floor_witness :
    ((totalDiff 1100 1000 : Nat) : Int) = max ((1100 : Int) - 1000) 1 ∧
    1 ≤ totalDiff 1100 1000 ∧
    ((totalDiff 1100 1000 : Nat) : ℚ) ≠ 0 ∧
    ((1100 : Nat) ≤ 1000 → totalDiff 1100 1000 = 1) ∧
    totalDiff 1000 1100 = 1 :=
  ⟨(C10_totalDiff_floor 1100 1000 (by norm_num)).1,
   (C10_totalDiff_floor 1100 1000 (by norm_num)).2.1,
   (C10_totalDiff_floor 1100 1000 (by norm_num)).2.2.1,
   (C10_totalDiff_floor 1100 1000 (by norm_num)).2.2.2,
   (C10_totalDiff_floor 1000 1100 (by norm_num)).2.2.2 (by norm_num)⟩

/-- C6. For an enumerated process whose id has a baseline `prev` in the previous
map, the record `collectProcesses` emits at its place has, with `cur` the current
cumulative ticks and `totalDelta` the (positive) `totalDiff` of the tick,
`cpu = (cur - prev) / totalDelta * 100` when `cur >= prev` and `cpu = 0` when
`cur < prev`. Floats are exact rationals. -/
theorem C6_cpu_percent_formula (os : ProcFS) (memKB : Int) (snap : Snapshot)
    (k : Nat) (pid : Int) (prev : Nat)
    (hk : os.pids.get? k = some pid)
    (hprev : snap.procCPU_prev.find pid = some prev) :
    ∃ r, (collectProcesses os memKB snap).1.get? k = some r ∧ r.pid = pid ∧
      0 < totalDiff (readTotalCPU os) snap.totalCPU_prev ∧
      (prev ≤ readProcCPU os pid →
        r.cpu = ((readProcCPU os pid : ℚ) - (prev : ℚ)) /
          (totalDiff (readTotalCPU os) snap.totalCPU_prev : ℚ) * 100) ∧
      (readProcCPU os pid < prev → r.cpu = 0) := by
  have hpos := totalDiff_pos_of_lt (readTotalCPU os) snap.totalCPU_prev (readTotalCPU_lt os)
  refine ⟨rowOf os memKB snap (totalDiff (readTotalCPU os) snap.totalCPU_prev) pid,
    ?_, rfl, hpos, ?_, ?_⟩
  · rw [collectProcesses_plist]
    simp [List.get?_eq_getElem?] at hk ⊢
    exact ⟨pid, hk, rfl⟩
  · intro hle
    have hp : prevOf snap pid = prev := by simp [prevOf, hprev]
    simp only [rowOf, cpuOf, hp]
    rw [if_pos ⟨hle, hpos⟩, sub64_of_le hle (readProcCPU_lt os pid), Nat.cast_sub hle]
  · intro hlt
    have hp : prevOf snap pid = prev := by simp [prevOf, hprev]
    simp only [rowOf, cpuOf, hp]
    rw [if_neg (by omega)]

theorem C6_cpu_percent_formula_witness :
    ∃ r, (collectProcesses osSingle 0 snapSeen).1.get? 0 = some r ∧ r.pid = 7 ∧
      0 < totalDiff (readTotalCPU osSingle) snapSeen.totalCPU_prev ∧
      (20 ≤ readProcCPU osSingle 7 →
        r.cpu = ((readProcCPU osSingle 7 : ℚ) - ((20 : Nat) : ℚ)) /
          (totalDiff (readTotalCPU osSingle) snapSeen.totalCPU_prev : ℚ) * 100) ∧
      (readProcCPU osSingle 7 < 20 → r.cpu = 0) :=
  C6_cpu_percent_formula osSingle 0 snapSeen 0 7 20 (by simp [osSingle])
    (by simp [snapSeen, TickMap.find])

/-- C1, as stated, fails: id 7 is absent from the previous map, its cumulative
ticks are 50 and the total advanced by 100, and the emitted record has
`cpu = 50`, not 0. -/
theorem C1_first_sample_not_zero :
    snapEmpty.procCPU_prev.find 7 = none ∧
    (collectProcesses osSingle 0 snapEmpty).1.map (fun r => (r.pid, r.cpu)) = [(7, 50)] := by
  refine ⟨rfl, ?_⟩
  rw [collectProcesses_plist]
  simp [osSingle, snapEmpty, rowOf, cpuOf, prevOf, TickMap.find, readProcCPU, readTotalCPU,
    CpuLine.total, totalDiff, wrap64, sub64]

/-- C1, amended. For an enumerated process whose id has no entry in the previous
map the baseline is 0: the emitted record has `cpu = cur / totalDelta * 100`,
which is 0 exactly when the cumulative tick count `cur` is 0. -/
theorem C1_first_sample_baseline_zero (os : ProcFS) (memKB : Int) (snap : Snapshot)
    (k : Nat) (pid : Int)
    (hk : os.pids.get? k = some pid)
    (hnew : snap.procCPU_prev.find pid = none) :
    ∃ r, (collectProcesses os memKB snap).1.get? k = some r ∧ r.pid = pid ∧
      r.cpu = (readProcCPU os pid : ℚ) /
          (totalDiff (readTotalCPU os) snap.totalCPU_prev : ℚ) * 100 ∧
      (r.cpu = 0 ↔ readProcCPU os pid = 0) := by
  have hpos := totalDiff_pos_of_lt (readTotalCPU os) snap.totalCPU_prev (readTotalCPU_lt os)
  have hq : ((totalDiff (readTotalCPU os) snap.totalCPU_prev : Nat) : ℚ) ≠ 0 := by
    exact_mod_cast (Nat.pos_iff_ne_zero.mp hpos)
  have hp : prevOf snap pid = 0 := by simp [prevOf, hnew]
  have hcpu : (rowOf os memKB snap (totalDiff (readTotalCPU os) snap.totalCPU_prev) pid).cpu
      = (readProcCPU os pid : ℚ) /
          (totalDiff (readTotalCPU os) snap.totalCPU_prev : ℚ) * 100 := by
    simp only [rowOf, cpuOf, hp]
    rw [if_pos ⟨Nat.zero_le _, hpos⟩, sub64_of_le (Nat.zero_le _) (readProcCPU_lt os pid)]
    simp
  refine ⟨rowOf os memKB snap (totalDiff (readTotalCPU os) snap.totalCPU_prev) pid,
    ?_, rfl, hcpu, ?_⟩
  · rw [collectProcesses_plist]
    simp [List.get?_eq_getElem?] at hk ⊢
    exact ⟨pid, hk, rfl⟩
  · rw [hcpu]
    constructor
    · intro h
      have h2 : (readProcCPU os pid : ℚ) = 0 := by
        rcases mul_eq_zero.mp h with h3 | h3
        · rcases div_eq_zero_iff.mp h3 with h4 | h4
          · exact h4
          · exact absurd h4 hq
        · norm_num at h3
      exact_mod_cast h2
    · intro h
      rw [h]
      simp

theorem C1_first_sample_baseline_zero_witness :
    ∃ r, (collectProcesses osSingle 0 snapEmpty).1.get? 0 = some r ∧ r.pid = 7 ∧
      r.cpu = (readProcCPU osSingle 7 : ℚ) /
          (totalDiff (readTotalCPU osSingle) snapEmpty.totalCPU_prev : ℚ) * 100 ∧
      (r.cpu = 0 ↔ readProcCPU osSingle 7 = 0) :=
  C1_first_sample_baseline_zero osSingle 0 snapEmpty 0 7 (by simp [osSingle]) rfl

/-- C8, evaluated where the code departs from it: the name of id 42 cannot be
read, `readProcName` hands back the decimal id instead of an empty string, the
guard `if (name.empty()) continue;` does not fire, and the returned list holds a
record for 42. -/
theorem C8_unreadable_name_not_skipped :
    osVanished.comm 42 = none ∧
    (collectProcesses osVanished 0 snapEmpty).1.map (fun r => (r.pid, r.name)) =
      [(42, to_string 42)] := by
  refine ⟨rfl, ?_⟩
  rw [collectProcesses_plist]
  simp [osVanished, rowOf, readProcName, stripLineEnd]

/-- The guard `if (name.empty()) continue;` of `collectProcesses` never fires:
every enumerated id gets one record, in enumeration order, named by the decimal
id when the name read fails or yields an empty string. -/
theorem collectProcesses_no_id_skipped (os : ProcFS) (memKB : Int) (snap : Snapshot) :
    (collectProcesses os memKB snap).1.map (fun r => r.pid) = os.pids ∧
    ∀ r ∈ (collectProcesses os memKB snap).1,
      r.name ≠ [] ∧
      ((os.comm r.pid = none ∨ ∃ line, os.comm r.pid = some line ∧ stripLineEnd line = []) →
        r.name = to_string r.pid) ∧
      (∀ line, os.comm r.pid = some line → stripLineEnd line ≠ [] →
        r.name = stripLineEnd line) := by
  rw [collectProcesses_plist]
  refine ⟨?_, ?_⟩
  · simp [rowOf, Function.comp_def]
  · intro r hr
    rcases List.mem_map.mp hr with ⟨pid, _, rfl⟩
    refine ⟨readProcName_ne_nil os pid, ?_, ?_⟩
    · intro h
      rcases h with h | ⟨line, h1, h2⟩
      · exact readProcName_of_none os pid h
      · exact readProcName_of_empty os pid line h1 h2
    · intro line h1 h2
      exact readProcName_of_line os pid line h1 h2

theorem TickMap.mem_keys_set (m : TickMap) (p : Int) (v : Nat) (k : Int) :
    k ∈ (m.set p v).keys ↔ k = p ∨ k ∈ m.keys := by
  unfold TickMap.set TickMap.keys
  simp only [List.map_cons, List.mem_cons, List.mem_map, List.mem_filter, decide_eq_true_eq]
  constructor
  · rintro (h | ⟨e, ⟨he, _⟩, rfl⟩)
    · exact Or.inl h
    · exact Or.inr ⟨e, he, rfl⟩
  · rintro (h | ⟨e, he, rfl⟩)
    · exact Or.inl h
    · by_cases hp : e.1 = p
      · exact Or.inl hp
      · exact Or.inr ⟨e, ⟨he, hp⟩, rfl⟩

theorem TickMap.mem_keys_foldl_set (f : Int → Nat) (pids : List Int) (m : TickMap) (k : Int) :
    k ∈ (pids.foldl (fun m pid => TickMap.set m pid (f pid)) m).keys ↔
      k ∈ m.keys ∨ k ∈ pids := by
  induction pids generalizing m with
  | nil => simp
  | cons p ps ih =>
    rw [List.foldl_cons, ih, TickMap.mem_keys_set]
    simp only [List.mem_cons]
    tauto

/-- The ids in the map after a tick are those of the previous map together with
those enumerated in the tick. -/
theorem collectProcesses_keys (os : ProcFS) (memKB : Int) (snap : Snapshot) (k : Int) :
    k ∈ (collectProcesses os memKB snap).2.1.procCPU_prev.keys ↔
      k ∈ snap.procCPU_prev.keys ∨ k ∈ os.pids := by
  rw [collectProcesses_map]
  exact TickMap.mem_keys_foldl_set _ _ _ _

/-- C2, evaluated where the code departs from it: the previous map holds id 5
only, the tick enumerates id 7 only, and after the tick the map holds 7 and still
holds 5 with its old baseline. -/
theorem C2_stale_id_survives :
    snapStale.procCPU_prev.keys = [5] ∧ osSingle.pids = [7] ∧
    (collectProcesses osSingle 0 snapStale).2.1.procCPU_prev = [(7, 50), (5, 10)] ∧
    (collectProcesses osSingle 0 snapStale).2.1.procCPU_prev.find 5 = some 10 := by
  refine ⟨rfl, rfl, ?_, ?_⟩
  · rw [collectProcesses_map]
    simp [osSingle, snapStale, TickMap.set, readProcCPU, wrap64]
  · rw [collectProcesses_map]
    simp [osSingle, snapStale, TickMap.set, TickMap.find, readProcCPU, wrap64]

theorem colorCPU_high_iff (x : ℚ) : x ≥ 70 ↔ colorCPU x = 3 := by
  unfold colorCPU
  split_ifs <;> simp <;> linarith

theorem colorMEM_high_iff (x : ℚ) : x ≥ 15 ↔ colorMEM x = 3 := by
  unfold colorMEM
  split_ifs <;> simp <;> linarith

/-- C9. `colorCPU` gives band 1 exactly below 25, band 2 exactly on `[25, 70)` and
band 3 exactly from 70 on; `colorMEM` gives band 1 exactly below 4, band 2 exactly
on `[4, 15)` and band 3 exactly from 15 on; each returns one of 1, 2, 3. -/
theorem C9_color_bands (x : ℚ) :
    (colorCPU x = 1 ↔ x < 25) ∧ (colorCPU x = 2 ↔ 25 ≤ x ∧ x < 70) ∧
    (colorCPU x = 3 ↔ 70 ≤ x) ∧
    (colorMEM x = 1 ↔ x < 4) ∧ (colorMEM x = 2 ↔ 4 ≤ x ∧ x < 15) ∧
    (colorMEM x = 3 ↔ 15 ≤ x) ∧
    (colorCPU x = 1 ∨ colorCPU x = 2 ∨ colorCPU x = 3) ∧
    (colorMEM x = 1 ∨ colorMEM x = 2 ∨ colorMEM x = 3) := by
  unfold colorCPU colorMEM
  refine ⟨?_, ?_, ?_, ?_, ?_, ?_, ?_, ?_⟩ <;>
    · split_ifs <;> simp <;> (try constructor) <;> (try intros) <;> linarith

/-! ## System-wide CPU percent -/

theorem CpuLine.total_lt (c : CpuLine) : c.total < 2 ^ 64 := wrap64_lt _

theorem CpuLine.idle_lt (c : CpuLine) : c.idle < 2 ^ 64 := wrap64_lt _

theorem cpuUsagePercent_statics (os : ProcFS) (t : CpuLine) (statics : CpuStatics)
    (lastCPU : ℚ) (lastTotal : Nat) (h : os.statLine = some t) :
    (cpuUsagePercent os statics lastCPU lastTotal).statics =
      { prevIdle := t.idle, prevTotal := t.total } := by
  unfold cpuUsagePercent
  rw [h]
  simp only []
  split <;> rfl

theorem sub64_busy {a0 a1 i0 i1 : Nat} (hi0 : i0 < 2 ^ 64) (hi1 : i1 < 2 ^ 64)
    (hlo : 0 ≤ ((a1 : Int) - a0) - ((i1 : Int) - i0))
    (hhi : ((a1 : Int) - a0) - ((i1 : Int) - i0) < 2 ^ 64) :
    ((sub64 (sub64 a1 a0) (sub64 i1 i0) : Nat) : Int) = ((a1 : Int) - a0) - ((i1 : Int) - i0) := by
  unfold sub64
  omega

/-- Two consecutive calls whose busy delta `dTotal - dIdle` is an unsigned 64-bit
value: the second call returns `(dTotal - dIdle) / dTotal * 100`. -/
theorem cpuUsageTwice_pct (os0 os1 : ProcFS) (t0 t1 : CpuLine) (statics : CpuStatics)
    (lastCPU : ℚ) (lastTotal : Nat)
    (h0 : os0.statLine = some t0) (h1 : os1.statLine = some t1)
    (hT : t0.total < t1.total)
    (hlo : 0 ≤ ((t1.total : Int) - t0.total) - ((t1.idle : Int) - t0.idle))
    (hhi : ((t1.total : Int) - t0.total) - ((t1.idle : Int) - t0.idle) < 2 ^ 64) :
    (cpuUsageTwice os0 os1 statics lastCPU lastTotal).pct =
      ((((t1.total : Int) - t0.total) - ((t1.idle : Int) - t0.idle) : Int) : ℚ) /
        ((((t1.total : Int) - t0.total) : Int) : ℚ) * 100 ∧
    (cpuUsageTwice os0 os1 statics lastCPU lastTotal).statics =
      { prevIdle := t1.idle, prevTotal := t1.total } := by
  have hs := cpuUsagePercent_statics os0 t0 statics lastCPU lastTotal h0
  refine ⟨?_, ?_⟩
  · have hdt : ((sub64 t1.total t0.total : Nat) : Int) = (t1.total : Int) - t0.total := by
      rw [sub64_of_le (Nat.le_of_lt hT) t1.total_lt]
      omega
    have hne : sub64 t1.total t0.total ≠ 0 := by
      rw [sub64_of_le (Nat.le_of_lt hT) t1.total_lt]
      omega
    have hbusy := sub64_busy t0.idle_lt t1.idle_lt hlo hhi
    unfold cpuUsageTwice
    simp only [hs]
    unfold cpuUsagePercent
    rw [h1]
    simp only [if_neg hne]
    rw [← Int.cast_natCast (sub64 (sub64 t1.total t0.total) (sub64 t1.idle t0.idle)), hbusy,
      ← Int.cast_natCast (sub64 t1.total t0.total), hdt]
  · unfold cpuUsageTwice
    exact cpuUsagePercent_statics os1 t1 _ _ _ h1

/-- C7. For two consecutive readings `t0` then `t1` of the cumulative aggregate
counters (no busy counter runs backwards and each sum fits in 64 bits) with
`dTotal = total1 - total0 > 0` and `dIdle = idle1 - idle0`, the second call of
`cpuUsagePercent` returns `(dTotal - dIdle) / dTotal * 100`, whatever the statics
and the reference parameters were before the first call; the previous values it
uses are its own statics, not the per-process `Snapshot`, and after the call they
hold the second reading. Floats are exact rationals. -/
theorem C7_busy_percent (os0 os1 : ProcFS) (t0 t1 : CpuLine) (statics : CpuStatics)
    (lastCPU : ℚ) (lastTotal : Nat)
    (h0 : os0.statLine = some t0) (h1 : os1.statLine = some t1)
    (hu : t0.u ≤ t1.u) (hn : t0.n ≤ t1.n) (hs : t0.s ≤ t1.s)
    (hiq : t0.iq ≤ t1.iq) (hsi : t0.si ≤ t1.si) (hst : t0.st ≤ t1.st)
    (hb0 : t0.u + t0.n + t0.s + t0.i + t0.io + t0.iq + t0.si + t0.st < 2 ^ 64)
    (hb1 : t1.u + t1.n + t1.s + t1.i + t1.io + t1.iq + t1.si + t1.st < 2 ^ 64)
    (hT : t0.total < t1.total) :
    (cpuUsageTwice os0 os1 statics lastCPU lastTotal).pct =
      ((((t1.total : Int) - t0.total) - ((t1.idle : Int) - t0.idle) : Int) : ℚ) /
        ((((t1.total : Int) - t0.total) : Int) : ℚ) * 100 ∧
    (cpuUsageTwice os0 os1 statics lastCPU lastTotal).statics =
      { prevIdle := t1.idle, prevTotal := t1.total } := by
  have hlo : 0 ≤ ((t1.total : Int) - t0.total) - ((t1.idle : Int) - t0.idle) := by
    unfold CpuLine.total CpuLine.idle wrap64
    omega
  have hhi : ((t1.total : Int) - t0.total) - ((t1.idle : Int) - t0.idle) < 2 ^ 64 := by
    unfold CpuLine.total CpuLine.idle wrap64
    omega
  exact cpuUsageTwice_pct os0 os1 t0 t1 statics lastCPU lastTotal h0 h1 hT hlo hhi

theorem C7_busy_percent_witness :
    lineA.total = 1000 ∧ lineB.total = 1100 ∧ lineA.idle = 800 ∧ lineB.idle = 850 ∧
    (cpuUsageTwice (osOfLine lineA) (osOfLine lineB) {} 0 0).pct = 50 := by
  have h := (C7_busy_percent (osOfLine lineA) (osOfLine lineB) lineA lineB {} 0 0 rfl rfl
    (by decide) (by decide) (by decide) (by decide) (by decide) (by decide)
    (by simp [lineA]) (by simp [lineB])
    (by simp [lineA, lineB, CpuLine.total, wrap64])).1
  refine ⟨by simp [lineA, CpuLine.total, wrap64], by simp [lineB, CpuLine.total, wrap64],
    by simp [lineA, CpuLine.idle, wrap64], by simp [lineB, CpuLine.idle, wrap64], ?_⟩
  rw [h]
  simp [lineA, lineB, CpuLine.total, CpuLine.idle, wrap64]

/-! ## The session loop: claims -/

/-- C5. The alert flag is true exactly when some row has `cpu >= 70` or
`mem >= 15`, that is, when some row is in band 3 of `colorCPU` or `colorMEM`; a
single row with `cpu = 69, mem = 14` gives false, one with `cpu = 70, mem = 0` gives
true, and the empty list gives false. -/
theorem C5_alert_iff_high_band (plist : List ProcessInfo) :
    (computeAlert plist = true ↔ ∃ p ∈ plist, p.cpu ≥ 70 ∨ p.mem ≥ 15) ∧
    (computeAlert plist = true ↔ ∃ p ∈ plist, colorCPU p.cpu = 3 ∨ colorMEM p.mem = 3) ∧
    (∀ (pid : Int) (name : List Char),
      computeAlert [{ pid := pid, name := name, cpu := 69, mem := 14 }] = false ∧
      computeAlert [{ pid := pid, name := name, cpu := 70, mem := 0 }] = true) ∧
    computeAlert [] = false := by
  have key : computeAlert plist = true ↔ ∃ p ∈ plist, p.cpu ≥ 70 ∨ p.mem ≥ 15 := by
    induction plist with
    | nil => simp [computeAlert]
    | cons p rest ih =>
      unfold computeAlert
      by_cases h : p.cpu ≥ 70 ∨ p.mem ≥ 15
      · rw [if_pos h]
        simp only [List.mem_cons, true_iff]
        exact ⟨p, Or.inl rfl, h⟩
      · rw [if_neg h, ih]
        constructor
        · rintro ⟨q, hq, hq2⟩
          exact ⟨q, List.mem_cons_of_mem _ hq, hq2⟩
        · rintro ⟨q, hq, hq2⟩
          rcases List.mem_cons.mp hq with rfl | hq
          · exact absurd hq2 h
          · exact ⟨q, hq, hq2⟩
  refine ⟨key, ?_, ?_, rfl⟩
  · rw [key]
    have hband : ∀ p : ProcessInfo,
        (p.cpu ≥ 70 ∨ p.mem ≥ 15) ↔ (colorCPU p.cpu = 3 ∨ colorMEM p.mem = 3) := by
      intro p
      rw [(colorCPU_high_iff p.cpu), (colorMEM_high_iff p.mem)]
    constructor
    · rintro ⟨q, hq, hq2⟩
      exact ⟨q, hq, (hband q).mp hq2⟩
    · rintro ⟨q, hq, hq2⟩
      exact ⟨q, hq, (hband q).mpr hq2⟩
  · intro pid name
    constructor
    · simp [computeAlert]
      norm_num
    · simp [computeAlert]

theorem stoi_abc : stoi ['a', 'b', 'c'] = none := by decide

theorem stoi_one : stoi ['1'] = some 1 := by decide

theorem stoi_4321 : stoi ['4', '3', '2', '1'] = some 4321 := by decide

/-- The conversion `std::stoi` stops at the first character that is not a digit. -/
theorem stoi_trailing_text : stoi ['1', '2', 'a', 'b', 'c'] = some 12 := by decide

/-- C4. For every line entered at the kill prompt: when `std::stoi` throws or the
parsed value is at most 1, no `SIGTERM` is requested and the status is the
"Invalid PID" notice; otherwise exactly one `SIGTERM` is requested, for the parsed
id, and the status reports success when `kill` returns 0 and failure otherwise.
The lines `abc` and `1` request no signal; `4321` with a `kill` that succeeds
reports success for 4321. -/
theorem C4_kill_prompt (kill : Int → Int) (buf : List Char) :
    ((stoi buf = none ∨ ∃ v, stoi buf = some v ∧ v ≤ 1) →
      killBranch kill buf = { sigterms := [], status := KillStatus.invalidPid }) ∧
    (∀ v, stoi buf = some v → 1 < v →
      (killBranch kill buf).sigterms = [v] ∧
      (kill v = 0 → (killBranch kill buf).status = KillStatus.sent v) ∧
      (kill v ≠ 0 → (killBranch kill buf).status = KillStatus.failed v)) ∧
    killBranch kill ['a', 'b', 'c'] = { sigterms := [], status := KillStatus.invalidPid } ∧
    killBranch kill ['1'] = { sigterms := [], status := KillStatus.invalidPid } ∧
    (kill 4321 = 0 →
      killBranch kill ['4', '3', '2', '1'] =
        { sigterms := [4321], status := KillStatus.sent 4321 }) := by
  refine ⟨?_, ?_, ?_, ?_, ?_⟩
  · rintro (h | ⟨v, h, hv⟩)
    · simp [killBranch, h]
    · simp only [killBranch, h]
      rw [if_neg (by omega)]
  · intro v h hv
    simp only [killBranch, h]
    rw [if_pos (by omega)]
    by_cases hk : kill v = 0
    · simp [hk]
    · simp [hk]
  · simp [killBranch, stoi_abc]
  · simp [killBranch, stoi_one]
  · intro hk
    simp [killBranch, stoi_4321, hk]

theorem C4_kill_prompt_witness :
    killBranch (fun _ => 0) ['1'] = { sigterms := [], status := KillStatus.invalidPid } ∧
    (killBranch (fun _ => 0) ['4', '3', '2', '1']).sigterms = [4321] ∧
    (killBranch (fun _ => 0) ['4', '3', '2', '1']).status = KillStatus.sent 4321 ∧
    (killBranch (fun _ => -1) ['4', '3', '2', '1']).status = KillStatus.failed 4321 :=
  ⟨(C4_kill_prompt (fun _ => 0) ['1']).1 (Or.inr ⟨1, stoi_one, by decide⟩),
   ((C4_kill_prompt (fun _ => 0) ['4', '3', '2', '1']).2.1 4321 stoi_4321 (by decide)).1,
   ((C4_kill_prompt (fun _ => 0) ['4', '3', '2', '1']).2.1 4321 stoi_4321 (by decide)).2.1 rfl,
   ((C4_kill_prompt (fun _ => -1) ['4', '3', '2', '1']).2.1 4321 stoi_4321 (by decide)).2.2
     (by decide)⟩

/-! ## Sorting -/

theorem StrictWeakOrder.asymm {α : Type} {comp : α → α → Bool} (h : StrictWeakOrder comp)
    {a b : α} (hab : comp a b = true) : comp b a = false := by
  cases hba : comp b a with
  | false => rfl
  | true =>
    have h1 := h.2.1 a b a hab hba
    rw [h.1 a] at h1
    exact absurd h1 (by simp)

theorem StrictWeakOrder.negTrans {α : Type} {comp : α → α → Bool} (h : StrictWeakOrder comp)
    {a b c : α} (hab : comp a b = false) (hbc : comp b c = false) : comp a c = false := by
  cases hac : comp a c with
  | false => rfl
  | true =>
    have hba : comp b a = false := by
      cases hba : comp b a with
      | false => rfl
      | true =>
        have h1 := h.2.1 b a c hba hac
        rw [hbc] at h1
        exact absurd h1 (by simp)
    have hcb : comp c b = false := by
      cases hcb : comp c b with
      | false => rfl
      | true =>
        have h1 := h.2.1 a c b hac hcb
        rw [hab] at h1
        exact absurd h1 (by simp)
    have h2 := (h.2.2 a b c ⟨hab, hba⟩ ⟨hbc, hcb⟩).1
    rw [hac] at h2
    exact absurd h2 (by simp)

theorem byCpu_strictWeak : StrictWeakOrder byCpu := by
  refine ⟨?_, ?_, ?_⟩
  · intro a
    simp [byCpu]
  · intro a b c h1 h2
    simp only [byCpu, decide_eq_true_eq] at *
    linarith
  · intro a b c h1 h2
    simp only [byCpu, decide_eq_false_iff_not, not_lt] at *
    constructor <;> linarith [h1.1, h1.2, h2.1, h2.2]

theorem byMem_strictWeak : StrictWeakOrder byMem := by
  refine ⟨?_, ?_, ?_⟩
  · intro a
    simp [byMem]
  · intro a b c h1 h2
    simp only [byMem, decide_eq_true_eq] at *
    linarith
  · intro a b c h1 h2
    simp only [byMem, decide_eq_false_iff_not, not_lt] at *
    constructor <;> linarith [h1.1, h1.2, h2.1, h2.2]

/-! ## Rearrangement lemmas -/

theorem perm_cons_set {α : Type} (l : List α) (i : Nat) (a x : α) (h : l[i]? = some x) :
    List.Perm (x :: l.set i a) (a :: l) := by
  induction l generalizing i with
  | nil => simp at h
  | cons y t ih =>
    cases i with
    | zero =>
      simp at h
      subst h
      exact List.Perm.swap _ _ _
    | succ k =>
      simp at h
      have h1 := ih k h
      simp only [List.set_cons_succ]
      exact (List.Perm.swap y x _).trans
        ((List.Perm.cons y h1).trans (List.Perm.swap a y t))

theorem getElem?_set_of_getElem? {α : Type} (l : List α) (i j : Nat) (y : α)
    (hi : i < l.length) (hj : l[j]? = some y) : (l.set i y)[j]? = some y := by
  by_cases hij : i = j
  · subst hij
    simp [hi]
  · simp [List.getElem?_set, hij, hj]

theorem lt_length_of_getElem? {α : Type} {l : List α} {i : Nat} {x : α} (h : l[i]? = some x) :
    i < l.length := by
  by_contra hn
  rw [List.getElem?_eq_none (Nat.le_of_not_lt hn)] at h
  simp at h

theorem iterSwap_perm {α : Type} (l : List α) (i j : Nat) : List.Perm (iterSwap l i j) l := by
  unfold iterSwap
  split
  · rename_i x y hx hy
    have h1 := perm_cons_set l i y x hx
    have h2 := perm_cons_set (l.set i y) j x y
      (getElem?_set_of_getElem? l i j y (lt_length_of_getElem? hx) hy)
    exact List.Perm.cons_inv (h2.trans h1)
  · exact List.Perm.refl _

theorem iterSwap_length {α : Type} (l : List α) (i j : Nat) :
    (iterSwap l i j).length = l.length := (iterSwap_perm l i j).length_eq

theorem moveMedianToFirst_perm {α : Type} (comp : α → α → Bool) (l : List α)
    (result a b c : Nat) : List.Perm (moveMedianToFirst comp l result a b c) l := by
  unfold moveMedianToFirst
  split
  · split_ifs <;> exact iterSwap_perm _ _ _
  · exact List.Perm.refl _

theorem unguardedPartition_perm {α : Type} (comp : α → α → Bool) (fuel : Nat) (l : List α)
    (first last pivot : Nat) :
    List.Perm (unguardedPartition comp fuel l first last pivot).2 l := by
  induction fuel generalizing l first last with
  | zero => exact List.Perm.refl _
  | succ f ih =>
    unfold unguardedPartition
    split
    · exact List.Perm.refl _
    · simp only []
      split
      · exact (ih _ _ _).trans (iterSwap_perm _ _ _)
      · exact List.Perm.refl _

theorem unguardedPartitionPivot_perm {α : Type} (comp : α → α → Bool) (l : List α) :
    List.Perm (unguardedPartitionPivot comp l).2 l := by
  unfold unguardedPartitionPivot
  exact (unguardedPartition_perm _ _ _ _ _ _).trans (moveMedianToFirst_perm _ _ _ _ _ _)

theorem le_scanUp {α : Type} (comp : α → α → Bool) (pivot : α) (suffix : List α) (first : Nat) :
    first ≤ scanUp comp pivot suffix first := by
  induction suffix generalizing first with
  | nil => exact Nat.le_refl _
  | cons x rest ih =>
    unfold scanUp
    split
    · exact Nat.le_trans (Nat.le_succ first) (ih (first + 1))
    · exact Nat.le_refl _

theorem scanDown_le {α : Type} (comp : α → α → Bool) (pivot : α) (revPrefix : List α)
    (last : Nat) : scanDown comp pivot revPrefix last ≤ last := by
  induction revPrefix generalizing last with
  | nil => exact Nat.le_refl _
  | cons x rest ih =>
    unfold scanDown
    split
    · exact Nat.le_trans (ih (last - 1)) (Nat.sub_le last 1)
    · exact Nat.le_refl _

/-- The loop of `std::__unguarded_partition` ends within `last - first + 1`
rounds: more fuel than that does not change its result. -/
theorem unguardedPartition_fuel {α : Type} (comp : α → α → Bool) (fuel : Nat) (l : List α)
    (first last pivot : Nat) (h : last ≤ first + fuel) :
    unguardedPartition comp (fuel + 2) l first last pivot =
      unguardedPartition comp (fuel + 1) l first last pivot := by
  induction fuel generalizing l first last with
  | zero =>
    rw [unguardedPartition, unguardedPartition]
    split
    · rfl
    · rename_i p hp
      simp only []
      have h1 := le_scanUp comp p (l.drop first) first
      have h2 := scanDown_le comp p ((l.take (last - 1 + 1)).reverse) (last - 1)
      split
      · rename_i hlt
        rw [unguardedPartition, unguardedPartition]
        split
        · rfl
        · rename_i p2 hp2
          simp only []
          have h3 := le_scanUp comp p2
            ((iterSwap l (scanUp comp p (l.drop first) first)
              (scanDown comp p ((l.take (last - 1 + 1)).reverse) (last - 1))).drop
              (scanUp comp p (l.drop first) first + 1))
            (scanUp comp p (l.drop first) first + 1)
          omega
      · rfl
  | succ f ih =>
    rw [unguardedPartition]
    conv_rhs => rw [unguardedPartition]
    split
    · rfl
    · rename_i p hp
      simp only []
      have h1 := le_scanUp comp p (l.drop first) first
      have h2 := scanDown_le comp p ((l.take (last - 1 + 1)).reverse) (last - 1)
      split
      · rename_i hlt
        exact ih _ _ _ (by omega)
      · rfl

theorem pushHeap_perm {α : Type} (comp : α → α → Bool) (l : List α) (holeIndex topIndex : Nat)
    (value x : α) (hx : l[holeIndex]? = some x) :
    List.Perm (x :: pushHeap comp l holeIndex topIndex value) (value :: l) := by
  induction holeIndex using Nat.strong_induction_on generalizing l x with
  | _ hole ih =>
    rw [pushHeap]
    split
    · rename_i pv hpv
      split
      · rename_i hc
        have hlt : (hole - 1) / 2 < hole := by omega
        have hne : hole ≠ (hole - 1) / 2 := by omega
        have hget : (l.set hole pv)[(hole - 1) / 2]? = some pv := by
          simp [List.getElem?_set, hne, hpv]
        have h1 := ih _ hlt (l.set hole pv) pv hget
        have h2 := perm_cons_set l hole pv x hx
        have h3 : List.Perm (pv :: x :: pushHeap comp (l.set hole pv) ((hole - 1) / 2)
            topIndex value) (pv :: value :: l) :=
          (List.Perm.swap x pv _).trans
            ((List.Perm.cons x h1).trans
              ((List.Perm.swap value x _).trans
                ((List.Perm.cons value h2).trans (List.Perm.swap pv value l))))
        exact List.Perm.cons_inv h3
      · exact perm_cons_set l hole value x hx
    · exact perm_cons_set l hole value x hx

theorem perm_hole_step {α : Type} {l l2 : List α} {hole : Nat} {x y z : α}
    (hx : l[hole]? = some x) (h2 : List.Perm (y :: l2) (z :: l.set hole y)) :
    List.Perm (x :: l2) (z :: l) := by
  have h1 := perm_cons_set l hole y x hx
  have h3 : List.Perm (y :: x :: l2) (y :: z :: l) :=
    (List.Perm.swap x y _).trans
      ((List.Perm.cons x h2).trans
        ((List.Perm.swap z x _).trans
          ((List.Perm.cons z h1).trans (List.Perm.swap y z l))))
  exact List.Perm.cons_inv h3

theorem perm_hole_of {α : Type} {l r out : List α} {x z value : α}
    (hp : List.Perm (x :: r) (z :: l)) (h1 : List.Perm (z :: out) (value :: r)) :
    List.Perm (x :: out) (value :: l) := by
  have h3 : List.Perm (z :: x :: out) (z :: value :: l) :=
    (List.Perm.swap x z _).trans
      ((List.Perm.cons x h1).trans
        ((List.Perm.swap value x _).trans
          ((List.Perm.cons value hp).trans (List.Perm.swap z value l))))
  exact List.Perm.cons_inv h3

theorem adjustLoop_perm {α : Type} (comp : α → α → Bool) (len : Nat) (n : Nat) (l : List α)
    (holeIndex : Nat) (hn : len - holeIndex = n) (x : α) (hx : l[holeIndex]? = some x) :
    ∃ z, (adjustLoop comp l holeIndex len).1[(adjustLoop comp l holeIndex len).2]? = some z ∧
      List.Perm (x :: (adjustLoop comp l holeIndex len).1) (z :: l) := by
  induction n using Nat.strong_induction_on generalizing l holeIndex x with
  | _ n ih =>
    rw [adjustLoop]
    split
    · rename_i hlt
      simp only []
      split
      · rename_i a b ha hb
        split
        · have hne : holeIndex ≠ 2 * (holeIndex + 1) - 1 := by omega
          have hget : (l.set holeIndex b)[2 * (holeIndex + 1) - 1]? = some b := by
            simp [List.getElem?_set, hne, hb]
          obtain ⟨z, hz, hp⟩ := ih (len - (2 * (holeIndex + 1) - 1)) (by omega)
            (l.set holeIndex b) (2 * (holeIndex + 1) - 1) rfl b hget
          exact ⟨z, hz, perm_hole_step hx hp⟩
        · have hne : holeIndex ≠ 2 * (holeIndex + 1) := by omega
          have hget : (l.set holeIndex a)[2 * (holeIndex + 1)]? = some a := by
            simp [List.getElem?_set, hne, ha]
          obtain ⟨z, hz, hp⟩ := ih (len - (2 * (holeIndex + 1))) (by omega)
            (l.set holeIndex a) (2 * (holeIndex + 1)) rfl a hget
          exact ⟨z, hz, perm_hole_step hx hp⟩
      · exact ⟨x, hx, List.Perm.refl _⟩
    · exact ⟨x, hx, List.Perm.refl _⟩

theorem adjustHeap_perm {α : Type} (comp : α → α → Bool) (l : List α) (holeIndex len : Nat)
    (value x : α) (hx : l[holeIndex]? = some x) :
    List.Perm (x :: adjustHeap comp l holeIndex len value) (value :: l) := by
  obtain ⟨z, hz, hp⟩ := adjustLoop_perm comp len _ l holeIndex rfl x hx
  unfold adjustHeap
  simp only []
  generalize adjustLoop comp l holeIndex len = r at hz hp
  split
  · split
    · rename_i y hy
      simp only []
      have hne : r.2 ≠ 2 * (r.2 + 1) - 1 := by omega
      have hget : (r.1.set r.2 y)[2 * (r.2 + 1) - 1]? = some y := by
        simp [List.getElem?_set, hne, hy]
      have h1 := pushHeap_perm comp (r.1.set r.2 y) (2 * (r.2 + 1) - 1) holeIndex value y hget
      have h2 : List.Perm (z :: pushHeap comp (r.1.set r.2 y) (2 * (r.2 + 1) - 1) holeIndex
          value) (value :: r.1) := perm_hole_step hz h1
      exact perm_hole_of hp h2
    · have h1 := pushHeap_perm comp r.1 r.2 holeIndex value z hz
      exact perm_hole_of hp h1
  · have h1 := pushHeap_perm comp r.1 r.2 holeIndex value z hz
    exact perm_hole_of hp h1

theorem popHeap_perm {α : Type} (comp : α → α → Bool) (l : List α) (last result : Nat) :
    List.Perm (popHeap comp l last result) l := by
  unfold popHeap
  split
  · rename_i value top hv ht
    have hget : (l.set result top)[0]? = some top :=
      getElem?_set_of_getElem? l result 0 top (lt_length_of_getElem? hv) ht
    have h1 := adjustHeap_perm comp (l.set result top) 0 last value top hget
    have h2 := perm_cons_set l result top value hv
    exact List.Perm.cons_inv (h1.trans h2)
  · exact List.Perm.refl _

theorem makeHeapFrom_perm {α : Type} (comp : α → α → Bool) (parent : Nat) (l : List α) :
    List.Perm (makeHeapFrom comp parent l) l := by
  induction parent generalizing l with
  | zero =>
    unfold makeHeapFrom
    split
    · rename_i value hv
      exact List.Perm.cons_inv (adjustHeap_perm comp l 0 l.length value value hv)
    · exact List.Perm.refl _
  | succ p ih =>
    unfold makeHeapFrom
    split
    · rename_i value hv
      exact (ih _).trans
        (List.Perm.cons_inv (adjustHeap_perm comp l (p + 1) l.length value value hv))
    · exact List.Perm.refl _

theorem makeHeap_perm {α : Type} (comp : α → α → Bool) (l : List α) :
    List.Perm (makeHeap comp l) l := by
  unfold makeHeap
  split
  · exact List.Perm.refl _
  · exact makeHeapFrom_perm comp _ l

theorem sortHeapFrom_perm {α : Type} (comp : α → α → Bool) (last : Nat) (l : List α) :
    List.Perm (sortHeapFrom comp last l) l := by
  induction last generalizing l with
  | zero => exact List.Perm.refl _
  | succ k ih =>
    cases k with
    | zero => exact List.Perm.refl _
    | succ j =>
      unfold sortHeapFrom
      exact (ih _).trans (popHeap_perm comp l (j + 1) (j + 1))

theorem partialSort_perm {α : Type} (comp : α → α → Bool) (l : List α) :
    List.Perm (partialSort comp l) l := by
  unfold partialSort
  exact (sortHeapFrom_perm comp _ _).trans (makeHeap_perm comp l)

theorem introsortLoop_perm {α : Type} (comp : α → α → Bool) (depth : Nat) (l : List α) :
    List.Perm (introsortLoop comp depth l) l := by
  induction depth generalizing l with
  | zero =>
    unfold introsortLoop
    split
    · exact partialSort_perm comp l
    · exact List.Perm.refl _
  | succ d ih =>
    unfold introsortLoop
    split
    · simp only []
      have h1 := unguardedPartitionPivot_perm comp l
      have h2 := List.Perm.append (ih ((unguardedPartitionPivot comp l).2.take
        (unguardedPartitionPivot comp l).1)) (ih ((unguardedPartitionPivot comp l).2.drop
        (unguardedPartitionPivot comp l).1))
      rw [List.take_append_drop] at h2
      exact h2.trans h1
    · exact List.Perm.refl _

theorem introsortLoop_small {α : Type} (comp : α → α → Bool) (depth : Nat) (l : List α)
    (h : l.length ≤ 16) : introsortLoop comp depth l = l := by
  cases depth with
  | zero =>
    unfold introsortLoop
    rw [if_neg (by omega)]
  | succ d =>
    unfold introsortLoop
    rw [if_neg (by omega)]

/-! ## Insertion -/

theorem linearInsertRev_perm {α : Type} (comp : α → α → Bool) (val : α) (rl : List α) :
    List.Perm (linearInsertRev comp val rl) (val :: rl) := by
  induction rl with
  | nil => exact List.Perm.refl _
  | cons next rest ih =>
    unfold linearInsertRev
    split
    · exact (List.Perm.cons next ih).trans (List.Perm.swap val next rest)
    · exact List.Perm.refl _

theorem unguardedLinearInsert_perm {α : Type} (comp : α → α → Bool) (pre : List α) (val : α) :
    List.Perm (unguardedLinearInsert comp pre val) (val :: pre) := by
  unfold unguardedLinearInsert
  exact (List.reverse_perm _).trans
    ((linearInsertRev_perm comp val pre.reverse).trans
      (List.Perm.cons val (List.reverse_perm pre)))

theorem insertionStep_perm {α : Type} (comp : α → α → Bool) (pre : List α) (val : α) :
    List.Perm (insertionStep comp pre val) (val :: pre) := by
  unfold insertionStep
  split
  · exact List.Perm.refl _
  · split
    · exact List.Perm.refl _
    · exact unguardedLinearInsert_perm comp _ val

theorem linearInsertRev_sorted {α : Type} {comp : α → α → Bool} (h : StrictWeakOrder comp)
    (val : α) (rl : List α) (hs : List.Pairwise (fun a b => comp a b = false) rl) :
    List.Pairwise (fun a b => comp a b = false) (linearInsertRev comp val rl) := by
  induction rl with
  | nil => simp [linearInsertRev]
  | cons next rest ih =>
    rcases List.pairwise_cons.mp hs with ⟨hn, hr⟩
    unfold linearInsertRev
    cases hc : comp val next with
    | true =>
      simp only [if_true]
      refine List.pairwise_cons.mpr ⟨?_, ih hr⟩
      intro e he
      rcases List.mem_cons.mp ((linearInsertRev_perm comp val rest).subset he) with rfl | he
      · exact h.asymm hc
      · exact hn e he
    | false =>
      simp only [Bool.false_eq_true, if_false]
      refine List.pairwise_cons.mpr ⟨?_, hs⟩
      intro e he
      rcases List.mem_cons.mp he with rfl | he
      · exact hc
      · exact h.negTrans hc (hn e he)

theorem unguardedLinearInsert_sorted {α : Type} {comp : α → α → Bool}
    (h : StrictWeakOrder comp) (pre : List α) (val : α)
    (hs : List.Pairwise (fun a b => comp b a = false) pre) :
    List.Pairwise (fun a b => comp b a = false) (unguardedLinearInsert comp pre val) := by
  unfold unguardedLinearInsert
  rw [List.pairwise_reverse]
  exact linearInsertRev_sorted h val pre.reverse (List.pairwise_reverse.mpr hs)

theorem front_dominates {α : Type} {comp : α → α → Bool} (h : StrictWeakOrder comp)
    {val f : α} {t : List α} (hs : List.Pairwise (fun a b => comp b a = false) (f :: t))
    (hc : comp val f = true) : ∀ e ∈ f :: t, comp val e = true := by
  intro e he
  rcases List.mem_cons.mp he with rfl | he
  · exact hc
  · have hef : comp e f = false := (List.pairwise_cons.mp hs).1 e he
    cases hve : comp val e with
    | true => rfl
    | false =>
      have := h.negTrans hve hef
      rw [hc] at this
      exact absurd this (by simp)

theorem insertionStep_sorted {α : Type} {comp : α → α → Bool} (h : StrictWeakOrder comp)
    (pre : List α) (val : α) (hs : List.Pairwise (fun a b => comp b a = false) pre) :
    List.Pairwise (fun a b => comp b a = false) (insertionStep comp pre val) := by
  unfold insertionStep
  split
  · simp
  · rename_i f t
    split
    · rename_i hc
      refine List.pairwise_cons.mpr ⟨?_, hs⟩
      intro e he
      exact h.asymm (front_dominates h hs hc e he)
    · exact unguardedLinearInsert_sorted h _ val hs

theorem foldl_insertionStep_sorted {α : Type} {comp : α → α → Bool} (h : StrictWeakOrder comp)
    (rest pre : List α) (hs : List.Pairwise (fun a b => comp b a = false) pre) :
    List.Pairwise (fun a b => comp b a = false) (rest.foldl (insertionStep comp) pre) := by
  induction rest generalizing pre with
  | nil => exact hs
  | cons y ys ih => exact ih _ (insertionStep_sorted h pre y hs)

theorem foldl_insertionStep_perm {α : Type} (comp : α → α → Bool) (rest pre : List α) :
    List.Perm (rest.foldl (insertionStep comp) pre) (pre ++ rest) := by
  induction rest generalizing pre with
  | nil => simp
  | cons y ys ih =>
    refine (ih _).trans ?_
    exact (List.Perm.append_right ys (insertionStep_perm comp pre y)).trans
      (List.perm_middle.symm)

theorem foldl_unguardedLinearInsert_sorted {α : Type} {comp : α → α → Bool}
    (h : StrictWeakOrder comp) (rest pre : List α)
    (hs : List.Pairwise (fun a b => comp b a = false) pre) :
    List.Pairwise (fun a b => comp b a = false)
      (rest.foldl (unguardedLinearInsert comp) pre) := by
  induction rest generalizing pre with
  | nil => exact hs
  | cons y ys ih => exact ih _ (unguardedLinearInsert_sorted h pre y hs)

theorem foldl_unguardedLinearInsert_perm {α : Type} (comp : α → α → Bool)
    (rest pre : List α) :
    List.Perm (rest.foldl (unguardedLinearInsert comp) pre) (pre ++ rest) := by
  induction rest generalizing pre with
  | nil => simp
  | cons y ys ih =>
    refine (ih _).trans ?_
    exact (List.Perm.append_right ys (unguardedLinearInsert_perm comp pre y)).trans
      (List.perm_middle.symm)

theorem insertionSort_sorted {α : Type} {comp : α → α → Bool} (h : StrictWeakOrder comp)
    (l : List α) : List.Pairwise (fun a b => comp b a = false) (insertionSort comp l) := by
  cases l with
  | nil => simp [insertionSort]
  | cons x rest =>
    unfold insertionSort
    exact foldl_insertionStep_sorted h rest [x] (List.pairwise_singleton _ _)

theorem insertionSort_perm {α : Type} (comp : α → α → Bool) (l : List α) :
    List.Perm (insertionSort comp l) l := by
  cases l with
  | nil => exact List.Perm.refl _
  | cons x rest =>
    unfold insertionSort
    exact foldl_insertionStep_perm comp rest [x]

theorem finalInsertionSort_sorted {α : Type} {comp : α → α → Bool} (h : StrictWeakOrder comp)
    (l : List α) : List.Pairwise (fun a b => comp b a = false) (finalInsertionSort comp l) := by
  unfold finalInsertionSort
  split
  · unfold unguardedInsertionSort
    exact foldl_unguardedLinearInsert_sorted h _ _ (insertionSort_sorted h _)
  · exact insertionSort_sorted h l

theorem finalInsertionSort_perm {α : Type} (comp : α → α → Bool) (l : List α) :
    List.Perm (finalInsertionSort comp l) l := by
  unfold finalInsertionSort
  split
  · unfold unguardedInsertionSort
    refine (foldl_unguardedLinearInsert_perm comp _ _).trans ?_
    have h1 := List.Perm.append_right (l.drop 16) (insertionSort_perm comp (l.take 16))
    rw [List.take_append_drop] at h1
    exact h1
  · exact insertionSort_perm comp l

/-- The model of `std::sort` returns a rearrangement of its input. -/
theorem stdSort_perm {α : Type} (comp : α → α → Bool) (l : List α) :
    List.Perm (stdSort comp l) l := by
  cases l with
  | nil => exact List.Perm.refl _
  | cons x t =>
    unfold stdSort
    exact (finalInsertionSort_perm comp _).trans (introsortLoop_perm comp _ _)

/-- For a strict weak order the model of `std::sort` returns a sorted range. -/
theorem stdSort_sorted {α : Type} {comp : α → α → Bool} (h : StrictWeakOrder comp)
    (l : List α) : List.Pairwise (fun a b => comp b a = false) (stdSort comp l) := by
  cases l with
  | nil => simp [stdSort]
  | cons x t =>
    unfold stdSort
    exact finalInsertionSort_sorted h _

/-- On at most 16 elements `std::sort` is `std::__insertion_sort`. -/
theorem stdSort_small {α : Type} (comp : α → α → Bool) (l : List α) (h : l.length ≤ 16) :
    stdSort comp l = insertionSort comp l := by
  cases l with
  | nil => rfl
  | cons x t =>
    unfold stdSort
    rw [introsortLoop_small comp _ _ h]
    unfold finalInsertionSort
    rw [if_neg (by omega)]

/-! ## Tie order of the insertion sort -/

theorem linearInsertRev_filter {α : Type} {comp : α → α → Bool} (P : α → Bool)
    (hP : ∀ a b, P a = true → P b = true → comp a b = false) (val : α) (rl : List α) :
    (linearInsertRev comp val rl).filter P = [val].filter P ++ rl.filter P := by
  induction rl with
  | nil => simp [linearInsertRev]
  | cons next rest ih =>
    unfold linearInsertRev
    cases hc : comp val next with
    | false =>
      simp only [Bool.false_eq_true, if_false]
      exact List.filter_append [val] (next :: rest)
    | true =>
      simp only [if_true]
      rw [List.filter_cons, ih]
      cases hv : P val with
      | false => simp [List.filter_cons, hv]
      | true =>
        cases hn : P next with
        | false => simp [List.filter_cons, hv, hn]
        | true =>
          have := hP val next hv hn
          rw [hc] at this
          exact absurd this (by simp)

theorem unguardedLinearInsert_filter {α : Type} {comp : α → α → Bool} (P : α → Bool)
    (hP : ∀ a b, P a = true → P b = true → comp a b = false) (pre : List α) (val : α) :
    (unguardedLinearInsert comp pre val).filter P = pre.filter P ++ [val].filter P := by
  unfold unguardedLinearInsert
  rw [List.filter_reverse, linearInsertRev_filter P hP, List.reverse_append,
    List.filter_reverse, List.reverse_reverse]
  cases hv : P val <;> simp [List.filter_cons, hv]

theorem insertionStep_filter {α : Type} {comp : α → α → Bool} (h : StrictWeakOrder comp)
    (P : α → Bool) (hP : ∀ a b, P a = true → P b = true → comp a b = false)
    (pre : List α) (val : α) (hs : List.Pairwise (fun a b => comp b a = false) pre) :
    (insertionStep comp pre val).filter P = pre.filter P ++ [val].filter P := by
  unfold insertionStep
  split
  · simp
  · rename_i f t
    split
    · rename_i hc
      cases hv : P val with
      | false => simp [List.filter_cons, hv]
      | true =>
        have hnone : (f :: t).filter P = [] := by
          rw [List.filter_eq_nil_iff]
          intro e he hPe
          have h1 := front_dominates h hs hc e he
          have h2 := hP val e hv hPe
          rw [h1] at h2
          exact absurd h2 (by simp)
        rw [List.filter_cons, hv, hnone]
        simp [List.filter_cons, hv]
    · exact unguardedLinearInsert_filter P hP _ val

theorem foldl_insertionStep_filter {α : Type} {comp : α → α → Bool} (h : StrictWeakOrder comp)
    (P : α → Bool) (hP : ∀ a b, P a = true → P b = true → comp a b = false)
    (rest pre : List α) (hs : List.Pairwise (fun a b => comp b a = false) pre) :
    (rest.foldl (insertionStep comp) pre).filter P = (pre ++ rest).filter P := by
  induction rest generalizing pre with
  | nil => simp
  | cons y ys ih =>
    rw [List.foldl_cons, ih _ (insertionStep_sorted h pre y hs), List.filter_append,
      insertionStep_filter h P hP pre y hs, List.filter_append, List.append_assoc]
    exact congrArg _ (List.filter_append [y] ys).symm

/-- The insertion sort keeps the input order inside every class of mutually
equivalent elements. -/
theorem insertionSort_filter {α : Type} {comp : α → α → Bool} (h : StrictWeakOrder comp)
    (P : α → Bool) (hP : ∀ a b, P a = true → P b = true → comp a b = false) (l : List α) :
    (insertionSort comp l).filter P = l.filter P := by
  cases l with
  | nil => rfl
  | cons x rest =>
    unfold insertionSort
    rw [foldl_insertionStep_filter h P hP rest [x] (List.pairwise_singleton _ _)]
    rfl


theorem lgAux_eq_log (fuel n : Nat) (h : n ≤ fuel) : lgAux fuel n = Nat.log 2 n := by
  induction fuel generalizing n with
  | zero =>
    have h0 : n = 0 := by omega
    subst h0
    simp [lgAux]
  | succ f ih =>
    unfold lgAux
    split
    · rename_i h2
      rw [ih (n / 2) (by omega), Nat.log_of_one_lt_of_le (by omega) h2]
    · rw [Nat.log_of_lt (by omega)]

/-- The depth limit is computed with enough halving rounds: `lg` is the integer
logarithm in base 2. -/
theorem lg_eq_log (n : Nat) : lg n = Nat.log 2 n := lgAux_eq_log n n (Nat.le_refl n)

/-- The bound on the rounds of the partition loop that `unguardedPartitionPivot`
passes is never reached: a larger bound gives the same result. -/
theorem unguardedPartition_enough_fuel {α : Type} (comp : α → α → Bool) (n extra : Nat)
    (l : List α) :
    unguardedPartition comp (n + 1 + extra) l 1 (n + 1) 0 =
      unguardedPartition comp (n + 1) l 1 (n + 1) 0 := by
  induction extra with
  | zero => rfl
  | succ k ih =>
    have h1 := unguardedPartition_fuel comp (n + k) l 1 (n + 1) 0 (by omega)
    have e1 : n + 1 + (k + 1) = n + k + 2 := by omega
    have e2 : n + k + 1 = n + 1 + k := by omega
    rw [e1, h1, e2]
    exact ih

theorem sortProcesses_perm_pairwise (sortByCPU : Bool) (plist : List ProcessInfo) :
    List.Perm (sortProcesses sortByCPU plist) plist ∧
    List.Pairwise (fun a b => activeMetric sortByCPU a ≥ activeMetric sortByCPU b)
      (sortProcesses sortByCPU plist) := by
  cases sortByCPU with
  | true =>
    refine ⟨by simpa [sortProcesses] using stdSort_perm byCpu plist, ?_⟩
    have hp := stdSort_sorted byCpu_strictWeak plist
    simp only [sortProcesses, if_true, activeMetric]
    refine hp.imp ?_
    intro a b hab
    simp only [byCpu, decide_eq_false_iff_not, not_lt] at hab
    exact hab
  | false =>
    refine ⟨by simpa [sortProcesses] using stdSort_perm byMem plist, ?_⟩
    have hp := stdSort_sorted byMem_strictWeak plist
    simp only [sortProcesses, Bool.false_eq_true, if_false, activeMetric]
    refine hp.imp ?_
    intro a b hab
    simp only [byMem, decide_eq_false_iff_not, not_lt] at hab
    exact hab

theorem sortProcesses_small_stable (sortByCPU : Bool) (plist : List ProcessInfo)
    (h : plist.length ≤ 16) (v : ℚ) :
    (sortProcesses sortByCPU plist).filter (fun r => decide (activeMetric sortByCPU r = v)) =
      plist.filter (fun r => decide (activeMetric sortByCPU r = v)) := by
  cases sortByCPU with
  | true =>
    simp only [sortProcesses, if_true]
    rw [stdSort_small byCpu plist h]
    refine insertionSort_filter byCpu_strictWeak _ ?_ plist
    intro a b ha hb
    simp only [activeMetric, if_true, decide_eq_true_eq] at ha hb
    simp [byCpu, ha, hb]
  | false =>
    simp only [sortProcesses, Bool.false_eq_true, if_false]
    rw [stdSort_small byMem plist h]
    refine insertionSort_filter byMem_strictWeak _ ?_ plist
    intro a b ha hb
    simp only [activeMetric, Bool.false_eq_true, if_false, decide_eq_true_eq] at ha hb
    simp [byMem, ha, hb]

/-- C3, as stated, fails: seventeen rows with the ids 1 to 17 all tie at
`cpu = 0`, and sorted by CPU they come out in the id order
`[9,17,16,15,14,13,12,11,10,1,8,7,6,5,4,3,2]`, not in their input order. -/
theorem C3_tie_order_not_kept :
    rowsTied.map (fun r => (r.pid, r.cpu)) =
      [(1, 0), (2, 0), (3, 0), (4, 0), (5, 0), (6, 0), (7, 0), (8, 0), (9, 0), (10, 0),
       (11, 0), (12, 0), (13, 0), (14, 0), (15, 0), (16, 0), (17, 0)] ∧
    (sortProcesses true rowsTied).map (fun r => r.pid) =
      [9, 17, 16, 15, 14, 13, 12, 11, 10, 1, 8, 7, 6, 5, 4, 3, 2] := by
  constructor
  · decide
  · decide

/-- C3, amended. For every process list and either value of `sortByCPU`, the
per-tick sort returns a permutation of the input in which each row's active
metric is `>=` that of the next row (and of every later row); rows with equal
active metric keep their input order when the list has at most 16 rows, where
`std::sort` runs its insertion sort only. The rows
`[{id:1,cpu:10},{id:2,cpu:90},{id:3,cpu:10}]` sorted by CPU give the id order
`[2,1,3]`. -/
theorem C3_sort_descending_small_stable (sortByCPU : Bool) (plist : List ProcessInfo) :
    List.Perm (sortProcesses sortByCPU plist) plist ∧
    List.Chain' (fun a b => activeMetric sortByCPU a ≥ activeMetric sortByCPU b)
      (sortProcesses sortByCPU plist) ∧
    List.Pairwise (fun a b => activeMetric sortByCPU a ≥ activeMetric sortByCPU b)
      (sortProcesses sortByCPU plist) ∧
    (plist.length ≤ 16 → ∀ v : ℚ,
      (sortProcesses sortByCPU plist).filter (fun r => decide (activeMetric sortByCPU r = v)) =
        plist.filter (fun r => decide (activeMetric sortByCPU r = v))) ∧
    (sortProcesses true rowsExample).map (fun r => r.pid) = [2, 1, 3] := by
  have hgen := sortProcesses_perm_pairwise sortByCPU plist
  refine ⟨hgen.1, hgen.2.chain', hgen.2, ?_, ?_⟩
  · intro h v
    exact sortProcesses_small_stable sortByCPU plist h v
  · decide

theorem C3_sort_descending_small_stable_witness :
    rowsExample.length ≤ 16 ∧
    (sortProcesses true rowsExample).filter (fun r => decide (activeMetric true r = 10)) =
      rowsExample.filter (fun r => decide (activeMetric true r = 10)) ∧
    (sortProcesses true rowsExample).map (fun r => r.pid) = [2, 1, 3] :=
  ⟨by decide,
   (C3_sort_descending_small_stable true rowsExample).2.2.2.1 (by decide) 10,
   (C3_sort_descending_small_stable true rowsExample).2.2.2.2⟩

end SysMon
